import Mathlib

/-
Verification development for the `ord_by_key` crate: a source-to-source
transformer that, given a struct annotated with
`#[ord_eq_by_key_selector(|binding| key_expr, key_expr, ...)]`, parses the
attribute payload and synthesizes implementations of `PartialEq`, `Eq`,
`Ord` and `PartialOrd` based on lexicographic comparison of the values of
the key expressions, evaluated lazily in declared order.

The development has three layers, each a shallow embedding of a part of
`src/src/lib.rs`:

1. Semantics of the generated comparison methods (the bodies emitted by the
   `quote!` template at lines 293-333): the generated `eq`, `cmp` and
   `partial_cmp`, plus instrumented variants that count how many key
   indices were evaluated, for the laziness claims.
2. The attribute parser (`impl Parse for MacroAttribute` and
   `impl Parse for ParamDefinition`, lines 355-401), over a small token
   model.  Expression parsing is delegated by the source to the external
   `syn` library, so the embedding is parameterized by an opaque
   expression sub-parser, exactly as the spec treats key expressions as
   "opaque expression ASTs".
3. The synthesizer (`ord_eq_by_key_selector`, lines 241-337), modelled as
   a total function from the parsed attribute and the target struct's
   shape to a structural description of the emitted bundle.
-/

namespace OrdByKey

/-!  Layer 1: semantics of the generated comparison methods.

A generated key-selector function `_ord_eq_by_key_selector_i` evaluates the
i-th key expression on a `&Self` and returns a value of some type that
implements `Ord` (and hence `PartialEq`).  Since each key index may have
its own key type, we package, for each index, the composite operations the
generated methods actually perform: "evaluate the key on both operands and
compare/test-equal the two keys with the key type's own `cmp`/`eq`".
-/

/-- One key selector of an annotated struct, as used by the generated
methods: `keyCmp a b` stands for `key_i(a).cmp(&key_i(b))` and
`keyBeq a b` stands for `key_i(a).eq(&key_i(b))`. -/
structure KeySelector (α : Type) where
  keyCmp : α → α → Ordering
  keyBeq : α → α → Bool

namespace Gen

/-- Generated `PartialEq::eq` body (lib.rs lines 294-307): for each key
selector in declared order, compare the two keys with the key type's `eq`;
if the result is not `true`, return it; after all selectors, return
`true`. -/
def eq (ks : List (KeySelector α)) (a b : α) : Bool :=
  match ks with
  | [] => true
  | k :: rest =>
    let result := k.keyBeq a b
    if result ≠ true then result else eq rest a b

/-- Generated `Ord::cmp` body (lib.rs lines 313-326): for each key selector
in declared order, compare the two keys with the key type's `cmp`; if the
result is not `Equal`, return it; after all selectors, return `Equal`. -/
def cmp (ks : List (KeySelector α)) (a b : α) : Ordering :=
  match ks with
  | [] => Ordering.eq
  | k :: rest =>
    let result := k.keyCmp a b
    if result ≠ Ordering.eq then result else cmp rest a b

/-- Generated `PartialOrd::partial_cmp` body (lib.rs lines 330-332): wraps
`cmp` in `Some`. -/
def partialCmp (ks : List (KeySelector α)) (a b : α) : Option Ordering :=
  some (cmp ks a b)

/-- Instrumented `cmp`: additionally returns how many key indices were
evaluated.  The generated loop evaluates the key expressions of index i on
both operands exactly when iteration i is reached, so the number of loop
iterations performed is the number of key indices whose expressions get
evaluated. -/
def cmpCount (ks : List (KeySelector α)) (a b : α) : Ordering × Nat :=
  match ks with
  | [] => (Ordering.eq, 0)
  | k :: rest =>
    let result := k.keyCmp a b
    if result ≠ Ordering.eq then (result, 1)
    else
      let p := cmpCount rest a b
      (p.1, p.2 + 1)

/-- Instrumented `eq`: additionally returns how many key indices were
evaluated. -/
def eqCount (ks : List (KeySelector α)) (a b : α) : Bool × Nat :=
  match ks with
  | [] => (true, 0)
  | k :: rest =>
    let result := k.keyBeq a b
    if result ≠ true then (result, 1)
    else
      let p := eqCount rest a b
      (p.1, p.2 + 1)

/-- Instrumented `partial_cmp`: it delegates to `cmp`, so it evaluates
exactly the key indices `cmp` evaluates. -/
def partialCmpCount (ks : List (KeySelector α)) (a b : α) :
    Option Ordering × Nat :=
  (some (cmpCount ks a b).1, (cmpCount ks a b).2)

end Gen

/-- Spec-side description of the comparator ("for i = 0 to n-1 compare the
keys; the first non-Equal result is the answer; Equal when every per-key
comparison is Equal"), stated independently of the generated loop: the
first non-`Equal` element of the list of per-key comparison results,
defaulting to `Equal`. -/
def specLexCmp (ks : List (KeySelector α)) (a b : α) : Ordering :=
  ((ks.map (fun k => k.keyCmp a b)).find? (fun o => o ≠ Ordering.eq)).getD
    Ordering.eq

/-!  Helper lemmas shared by several claims. -/

theorem gen_cmpCount_fst (ks : List (KeySelector α)) (a b : α) :
    (Gen.cmpCount ks a b).1 = Gen.cmp ks a b := by
  induction ks with
  | nil => rfl
  | cons k rest ih =>
    simp only [Gen.cmpCount, Gen.cmp]
    by_cases h : k.keyCmp a b ≠ Ordering.eq
    · simp [h]
    · simp [h, ih]

theorem gen_eqCount_fst (ks : List (KeySelector α)) (a b : α) :
    (Gen.eqCount ks a b).1 = Gen.eq ks a b := by
  induction ks with
  | nil => rfl
  | cons k rest ih =>
    simp only [Gen.eqCount, Gen.eq]
    by_cases h : k.keyBeq a b ≠ true
    · simp [h]
    · simp [h, ih]

theorem gen_eq_all (ks : List (KeySelector α)) (a b : α) :
    Gen.eq ks a b = ks.all (fun k => k.keyBeq a b) := by
  induction ks with
  | nil => rfl
  | cons k rest ih =>
    simp only [Gen.eq, List.all_cons]
    by_cases h : k.keyBeq a b ≠ true
    · simp at h
      simp [h]
    · simp at h
      simp [h, ih]

theorem gen_cmp_spec (ks : List (KeySelector α)) (a b : α) :
    Gen.cmp ks a b = specLexCmp ks a b := by
  induction ks with
  | nil => rfl
  | cons k rest ih =>
    simp only [Gen.cmp, specLexCmp, List.map_cons, List.find?_cons]
    by_cases h : k.keyCmp a b ≠ Ordering.eq
    · simp [h]
    · simp at h
      simp [h, ih, specLexCmp]

theorem gen_cmp_eq_of_all (ks : List (KeySelector α)) (a b : α)
    (hall : ∀ k ∈ ks, k.keyCmp a b = Ordering.eq) :
    Gen.cmp ks a b = Ordering.eq := by
  rw [gen_cmp_spec]
  unfold specLexCmp
  have : (ks.map (fun k => k.keyCmp a b)).find?
      (fun o => o ≠ Ordering.eq) = none := by
    rw [List.find?_eq_none]
    intro o ho
    rcases List.mem_map.mp ho with ⟨k, hk, rfl⟩
    simp [hall k hk]
  rw [this]
  rfl

theorem gen_eq_true_iff (ks : List (KeySelector α)) (a b : α) :
    Gen.eq ks a b = true ↔ ∀ k ∈ ks, k.keyBeq a b = true := by
  rw [gen_eq_all]
  simp [List.all_eq_true]

theorem gen_cmpCount_le (ks : List (KeySelector α)) (a b : α) (i : Nat)
    (h : i < ks.length) (hd : (ks.get ⟨i, h⟩).keyCmp a b ≠ Ordering.eq) :
    (Gen.cmpCount ks a b).2 ≤ i + 1 := by
  induction ks generalizing i with
  | nil => exact absurd h (Nat.not_lt_zero i)
  | cons k rest ih =>
    show (if k.keyCmp a b ≠ Ordering.eq then (k.keyCmp a b, 1)
        else ((Gen.cmpCount rest a b).1, (Gen.cmpCount rest a b).2 + 1)).2 ≤
      i + 1
    by_cases hk : k.keyCmp a b ≠ Ordering.eq
    · rw [if_pos hk]
      exact Nat.succ_le_succ (Nat.zero_le i)
    · rw [if_neg hk]
      simp only [ne_eq, Decidable.not_not] at hk
      cases i with
      | zero => exact absurd hk hd
      | succ j =>
        exact Nat.succ_le_succ (ih j (Nat.lt_of_succ_lt_succ h) hd)

theorem gen_eqCount_le (ks : List (KeySelector α)) (a b : α) (i : Nat)
    (h : i < ks.length) (hd : (ks.get ⟨i, h⟩).keyBeq a b = false) :
    (Gen.eqCount ks a b).2 ≤ i + 1 := by
  induction ks generalizing i with
  | nil => exact absurd h (Nat.not_lt_zero i)
  | cons k rest ih =>
    show (if k.keyBeq a b ≠ true then (k.keyBeq a b, 1)
        else ((Gen.eqCount rest a b).1, (Gen.eqCount rest a b).2 + 1)).2 ≤
      i + 1
    by_cases hk : k.keyBeq a b ≠ true
    · rw [if_pos hk]
      exact Nat.succ_le_succ (Nat.zero_le i)
    · rw [if_neg hk]
      simp only [ne_eq, Decidable.not_not] at hk
      cases i with
      | zero =>
        have hd' : k.keyBeq a b = false := hd
        rw [hk] at hd'
        exact Bool.noConfusion hd'
      | succ j =>
        exact Nat.succ_le_succ (ih j (Nat.lt_of_succ_lt_succ h) hd)

/-!  Claim theorems for the generated-code layer. -/

/-- Claim C1: for every annotated struct whose key types have mutually
consistent `cmp` and `eq` (a valid Spec: each key selector's equality test
agrees with its three-way comparison), the generated `cmp(a,b)` returns
`Equal` if and only if the generated `eq(a,b)` returns `true`, for all
values `a` and `b`. -/
theorem cmp_eq_iff_eq (ks : List (KeySelector α)) (a b : α)
    (hlaw : ∀ k ∈ ks, (k.keyBeq a b = true ↔ k.keyCmp a b = Ordering.eq)) :
    (Gen.cmp ks a b = Ordering.eq ↔ Gen.eq ks a b = true) := by
  induction ks with
  | nil => simp [Gen.cmp, Gen.eq]
  | cons k rest ih =>
    have hk := hlaw k (List.mem_cons_self k rest)
    have hrest : ∀ k' ∈ rest,
        (k'.keyBeq a b = true ↔ k'.keyCmp a b = Ordering.eq) :=
      fun k' hmem => hlaw k' (List.mem_cons_of_mem k hmem)
    simp only [Gen.cmp, Gen.eq]
    by_cases hc : k.keyCmp a b = Ordering.eq
    · have hb : k.keyBeq a b = true := hk.mpr hc
      simp [hc, hb, ih hrest]
    · have hb : k.keyBeq a b ≠ true := fun h => hc (hk.mp h)
      simp [hc, hb]

/-- Claim C1 witness: a concrete instantiation with two lawful key
selectors on pairs of naturals. -/
theorem cmp_eq_iff_eq_witness :
    (Gen.cmp
        [⟨fun a b => compare a.1 b.1, fun a b => a.1 == b.1⟩,
         ⟨fun a b => compare a.2 b.2, fun a b => a.2 == b.2⟩]
        ((3, 4) : Nat × Nat) (3, 4) = Ordering.eq ↔
      Gen.eq
        [⟨fun a b => compare a.1 b.1, fun a b => a.1 == b.1⟩,
         ⟨fun a b => compare a.2 b.2, fun a b => a.2 == b.2⟩]
        ((3, 4) : Nat × Nat) (3, 4) = true) :=
  cmp_eq_iff_eq
    [⟨fun a b => compare a.1 b.1, fun a b => a.1 == b.1⟩,
     ⟨fun a b => compare a.2 b.2, fun a b => a.2 == b.2⟩]
    (3, 4) (3, 4) (by intro k hk; fin_cases hk <;> constructor <;> decide)

/-- Claim C2: the generated `cmp(a,b)` equals the first non-`Equal` result
among the per-key comparisons `key_i(a).cmp(key_i(b))` taken in declared
order, and equals `Equal` when every per-key comparison is `Equal`. -/
theorem cmp_is_first_decisive (ks : List (KeySelector α)) (a b : α) :
    Gen.cmp ks a b = specLexCmp ks a b ∧
      ((∀ k ∈ ks, k.keyCmp a b = Ordering.eq) →
        Gen.cmp ks a b = Ordering.eq) :=
  ⟨gen_cmp_spec ks a b, gen_cmp_eq_of_all ks a b⟩

/-- Claim C2 witness: with two all-`Equal` key selectors the generated
`cmp` returns `Equal`. -/
theorem cmp_is_first_decisive_witness :
    Gen.cmp
        [⟨fun a b => compare a.1 b.1, fun a b => a.1 == b.1⟩,
         ⟨fun a b => compare a.2 b.2, fun a b => a.2 == b.2⟩]
        ((5, 6) : Nat × Nat) (5, 6) = Ordering.eq :=
  (cmp_is_first_decisive
      [⟨fun a b => compare a.1 b.1, fun a b => a.1 == b.1⟩,
       ⟨fun a b => compare a.2 b.2, fun a b => a.2 == b.2⟩]
      (5, 6) (5, 6)).2
    (by intro k hk; fin_cases hk <;> decide)

/-- Claim C3: the generated `eq(a,b)` returns `true` if and only if every
per-key equality `key_i(a).eq(key_i(b))` holds; in particular it is
`false` as soon as some key pair compares unequal, and `true` when all key
pairs are equal. -/
theorem eq_iff_all_keys (ks : List (KeySelector α)) (a b : α) :
    Gen.eq ks a b = true ↔ ∀ k ∈ ks, k.keyBeq a b = true :=
  gen_eq_true_iff ks a b

/-- Claim C4: the generated `partial_cmp(a,b)` always returns
`Some(cmp(a,b))` and never returns `None`. -/
theorem partialCmp_some (ks : List (KeySelector α)) (a b : α) :
    Gen.partialCmp ks a b = some (Gen.cmp ks a b) ∧
      Gen.partialCmp ks a b ≠ none := by
  constructor
  · rfl
  · simp [Gen.partialCmp]

/-- Claim C5: in every generated operation with a body (`cmp`, `eq`, and
`partial_cmp`, which delegates to `cmp`; the generated `Eq` impl has no
body at all), the key expressions at index `i+1` and beyond are never
evaluated when the comparison at index `i` is already decisive: the number
of evaluated key indices is at most `i+1`.  The instrumented variants
compute the same results as the generated methods. -/
theorem lazy_short_circuit (ks : List (KeySelector α)) (a b : α) (i : Nat)
    (h : i < ks.length) :
    ((ks.get ⟨i, h⟩).keyCmp a b ≠ Ordering.eq →
        (Gen.cmpCount ks a b).2 ≤ i + 1 ∧
        (Gen.partialCmpCount ks a b).2 ≤ i + 1) ∧
      ((ks.get ⟨i, h⟩).keyBeq a b = false →
        (Gen.eqCount ks a b).2 ≤ i + 1) ∧
      (Gen.cmpCount ks a b).1 = Gen.cmp ks a b ∧
      (Gen.eqCount ks a b).1 = Gen.eq ks a b ∧
      (Gen.partialCmpCount ks a b).1 = Gen.partialCmp ks a b := by
  refine ⟨fun hd => ⟨gen_cmpCount_le ks a b i h hd, ?_⟩,
    fun hd => gen_eqCount_le ks a b i h hd,
    gen_cmpCount_fst ks a b, gen_eqCount_fst ks a b, ?_⟩
  · simpa [Gen.partialCmpCount] using gen_cmpCount_le ks a b i h hd
  · simp [Gen.partialCmpCount, Gen.partialCmp, gen_cmpCount_fst]

/-- Claim C5 witness: with three key selectors where index 0 is decisive,
only one key index is evaluated by `cmp`, `partial_cmp` and `eq`. -/
theorem lazy_short_circuit_witness :
    (Gen.cmpCount
        [⟨fun a b => compare a.1 b.1, fun a b => a.1 == b.1⟩,
         ⟨fun a b => compare a.2 b.2, fun a b => a.2 == b.2⟩,
         ⟨fun a b => compare a.2 b.2, fun a b => a.2 == b.2⟩]
        ((1, 9) : Nat × Nat) (2, 9)).2 ≤ 1 ∧
      (Gen.eqCount
        [⟨fun a b => compare a.1 b.1, fun a b => a.1 == b.1⟩,
         ⟨fun a b => compare a.2 b.2, fun a b => a.2 == b.2⟩,
         ⟨fun a b => compare a.2 b.2, fun a b => a.2 == b.2⟩]
        ((1, 9) : Nat × Nat) (2, 9)).2 ≤ 1 :=
  ⟨((lazy_short_circuit
      [⟨fun a b => compare a.1 b.1, fun a b => a.1 == b.1⟩,
       ⟨fun a b => compare a.2 b.2, fun a b => a.2 == b.2⟩,
       ⟨fun a b => compare a.2 b.2, fun a b => a.2 == b.2⟩]
      (1, 9) (2, 9) 0 (by decide)).1 (by decide)).1,
    (lazy_short_circuit
      [⟨fun a b => compare a.1 b.1, fun a b => a.1 == b.1⟩,
       ⟨fun a b => compare a.2 b.2, fun a b => a.2 == b.2⟩,
       ⟨fun a b => compare a.2 b.2, fun a b => a.2 == b.2⟩]
      (1, 9) (2, 9) 0 (by decide)).2.1 (by decide)⟩

/-- Claim C10: for every value `x` whose key comparisons are reflexive
(each key selector reports `Equal`/`true` when both operands are `x`), the
generated operations satisfy `eq(x,x) = true` and `cmp(x,x) = Equal`. -/
theorem refl_on_lawful (ks : List (KeySelector α)) (x : α)
    (hrefl : ∀ k ∈ ks, k.keyCmp x x = Ordering.eq ∧ k.keyBeq x x = true) :
    Gen.eq ks x x = true ∧ Gen.cmp ks x x = Ordering.eq := by
  constructor
  · exact (gen_eq_true_iff ks x x).mpr (fun k hk => (hrefl k hk).2)
  · exact gen_cmp_eq_of_all ks x x (fun k hk => (hrefl k hk).1)

/-- Claim C10 witness: reflexivity at a concrete value with two concrete
key selectors. -/
theorem refl_on_lawful_witness :
    Gen.eq
        [⟨fun a b => compare a.1 b.1, fun a b => a.1 == b.1⟩,
         ⟨fun a b => compare a.2 b.2, fun a b => a.2 == b.2⟩]
        ((7, 8) : Nat × Nat) (7, 8) = true ∧
      Gen.cmp
        [⟨fun a b => compare a.1 b.1, fun a b => a.1 == b.1⟩,
         ⟨fun a b => compare a.2 b.2, fun a b => a.2 == b.2⟩]
        ((7, 8) : Nat × Nat) (7, 8) = Ordering.eq :=
  refl_on_lawful
    [⟨fun a b => compare a.1 b.1, fun a b => a.1 == b.1⟩,
     ⟨fun a b => compare a.2 b.2, fun a b => a.2 == b.2⟩]
    (7, 8) (by intro k hk; fin_cases hk <;> constructor <;> decide)

/-!  Layer 2: the attribute parser (lib.rs lines 339-401).

The attribute payload is a token stream.  We model the tokens the grammar
`'|' binding '|' key_list` distinguishes: the `|` delimiter, the comma,
identifiers, parenthesized groups (proc-macro token trees), and a catchall
for any other token.  Key expressions are parsed by the external `syn`
library (`input.parse::<Expr>()`), so the embedding of `MacroAttribute`
parsing is parameterized by an opaque expression sub-parser which returns
the consumed expression and the rest of the input, or fails. -/

/-- Tokens of the attribute payload. -/
inductive Tok where
  | bar
  | comma
  | ident (s : String)
  | paren (inner : List Tok)
  | lit (n : Nat)

/-- The binding clause (lib.rs lines 350-353): a single identifier, or a
parenthesized list of identifiers used to destructure the struct. -/
inductive ParamDefinition where
  | SingleIdentifier (s : String)
  | Tuple (params : List String)
deriving DecidableEq, Repr

/-- Parsed attribute payload (lib.rs lines 343-348); the two `|` delimiter
tokens carry no data and are not stored. -/
structure MacroAttribute where
  param : ParamDefinition
  key_selectors : List (List Tok)

/-- Embedding of `Punctuated::<Ident, Token![,]>::parse_terminated` as used
at lib.rs line 391: zero or more comma-separated identifiers, an optional
trailing comma, nothing else allowed, the whole group consumed. -/
def parseIdentList : List Tok → Option (List String)
  | [] => some []
  | [Tok.ident s] => some [s]
  | Tok.ident s :: Tok.comma :: rest => (parseIdentList rest).map (s :: ·)
  | _ => none

/-- Embedding of `impl Parse for ParamDefinition` (lib.rs lines 385-401):
if the next token opens a parenthesized group, parse the group's content as
a comma-separated identifier list and return `Tuple`; otherwise parse
exactly one identifier and return `SingleIdentifier`. -/
def parseParamDefinition : List Tok → Option (ParamDefinition × List Tok)
  | Tok.paren inner :: rest =>
    (parseIdentList inner).map
      (fun params => (ParamDefinition.Tuple params, rest))
  | Tok.ident s :: rest => some (ParamDefinition.SingleIdentifier s, rest)
  | _ => none

/-- Embedding of the key-selector loop (lib.rs lines 361-380): parse one
expression; if the input is exhausted, stop; otherwise require a comma; if
the input is exhausted after the comma, stop; otherwise repeat.  The loop
only stops successfully on exhausted input, so no rest is returned.  The
`fuel` argument bounds the recursion; the caller passes more fuel than the
input has tokens, which suffices for any expression sub-parser that
consumes at least one token. -/
def parseKeyLoop (pExpr : List Tok → Option (List Tok × List Tok)) :
    Nat → List Tok → Option (List (List Tok))
  | 0, _ => none
  | fuel + 1, input =>
    match pExpr input with
    | none => none
    | some (e, rest) =>
      match rest with
      | [] => some [e]
      | Tok.comma :: rest2 =>
        match rest2 with
        | [] => some [e]
        | _ => (parseKeyLoop pExpr fuel rest2).map (e :: ·)
      | _ => none

/-- Embedding of `impl Parse for MacroAttribute` (lib.rs lines 355-383):
a `|` delimiter, the binding clause, a `|` delimiter, then the key-selector
list, which must consume the whole remaining input. -/
def parseMacroAttribute (pExpr : List Tok → Option (List Tok × List Tok))
    (input : List Tok) : Option MacroAttribute :=
  match input with
  | Tok.bar :: r1 =>
    match parseParamDefinition r1 with
    | some (p, Tok.bar :: r3) =>
      match parseKeyLoop pExpr (r3.length + 1) r3 with
      | some es => some ⟨p, es⟩
      | none => none
    | _ => none
  | _ => none

/-- Concrete expression sub-parser used to instantiate the parameterized
parser in witnesses: an expression is a maximal nonempty run of tokens up
to the first top-level comma (as `syn` behaves in a comma-separated
context); it fails on empty input or a leading comma, as `syn`'s
`Expr::parse` does. -/
def exprUpToComma (input : List Tok) : Option (List Tok × List Tok) :=
  let pre := input.takeWhile
    (fun t => match t with | Tok.comma => false | _ => true)
  if pre.isEmpty then none else some (pre, input.drop pre.length)

/-- Token form of a comma-separated identifier list (no trailing comma),
used to state the binding-clause claims. -/
def identListToks : List String → List Tok
  | [] => []
  | [s] => [Tok.ident s]
  | s :: rest => Tok.ident s :: Tok.comma :: identListToks rest

/-!  Parser helper lemmas. -/

theorem parseKeyLoop_ne_nil (pExpr : List Tok → Option (List Tok × List Tok)) :
    ∀ fuel input es, parseKeyLoop pExpr fuel input = some es → es ≠ [] := by
  intro fuel
  induction fuel with
  | zero =>
    intro input es h
    exact absurd h (by simp [parseKeyLoop])
  | succ f ih =>
    intro input es h
    rw [parseKeyLoop] at h
    split at h
    · exact Option.noConfusion h
    · split at h
      · injection h with h2
        subst h2
        simp
      · split at h
        · injection h with h2
          subst h2
          simp
        · rcases Option.map_eq_some'.mp h with ⟨es2, _, rfl⟩
          simp
      · exact Option.noConfusion h

theorem parseIdentList_toks : (names : List String) →
    parseIdentList (identListToks names) = some names
  | [] => rfl
  | [_] => rfl
  | s :: s2 :: rest => by
    have ih := parseIdentList_toks (s2 :: rest)
    show (parseIdentList (identListToks (s2 :: rest))).map (s :: ·) =
      some (s :: s2 :: rest)
    rw [ih]
    rfl

/-!  Claim theorems for the parser layer. -/

/-- Claim C6: the attribute parser requires at least one key expression:
when nothing follows the closing `|` of the binding clause, parsing fails
(the first expression parse hits empty input), and every successful parse
yields a non-empty key-selector list.  Stated for any expression sub-parser
that fails on empty input, as `syn`'s does. -/
theorem empty_key_list_is_error
    (pExpr : List Tok → Option (List Tok × List Tok))
    (hEmpty : pExpr [] = none) :
    (∀ r1 p, parseParamDefinition r1 = some (p, [Tok.bar]) →
        parseMacroAttribute pExpr (Tok.bar :: r1) = none) ∧
      ∀ input a, parseMacroAttribute pExpr input = some a →
        a.key_selectors ≠ [] := by
  constructor
  · intro r1 p hp
    simp only [parseMacroAttribute, hp]
    rw [parseKeyLoop]
    rw [hEmpty]
  · intro input a h
    cases input with
    | nil => exact Option.noConfusion h
    | cons t r1 =>
      cases t with
      | bar =>
        rw [parseMacroAttribute] at h
        repeat' split at h
        all_goals try exact Option.noConfusion h
        injection h with h2
        subst h2
        exact parseKeyLoop_ne_nil pExpr _ _ _ (by assumption)
      | comma => exact Option.noConfusion h
      | ident s => exact Option.noConfusion h
      | paren inner => exact Option.noConfusion h
      | lit n => exact Option.noConfusion h

/-- Claim C6 witness: the attribute `|p|` with an empty key list is
rejected by the parser instantiated with the concrete expression
sub-parser. -/
theorem empty_key_list_is_error_witness :
    parseMacroAttribute exprUpToComma [Tok.bar, Tok.ident "p", Tok.bar] =
      none :=
  (empty_key_list_is_error exprUpToComma rfl).1
    [Tok.ident "p", Tok.bar] (ParamDefinition.SingleIdentifier "p") rfl

/-- Claim C7: a parenthesized binding clause is parsed as a comma-separated
list of zero or more identifiers and produces the `Tuple` (destructure)
variant; in particular the empty binding `()` is accepted with zero
identifiers, not rejected. -/
theorem tuple_binding_accepts_zero_or_more (names : List String)
    (rest : List Tok) :
    parseParamDefinition (Tok.paren (identListToks names) :: rest) =
        some (ParamDefinition.Tuple names, rest) ∧
      parseParamDefinition (Tok.paren [] :: rest) =
        some (ParamDefinition.Tuple [], rest) := by
  constructor
  · simp only [parseParamDefinition, parseIdentList_toks names, Option.map_some']
  · rfl

/-!  Layer 3: the synthesizer (`ord_eq_by_key_selector`, lib.rs lines
241-337), modelled as a total function from the parsed attribute and the
target struct's shape to a structural description of the emitted bundle:
the unchanged original declaration, one inherent impl holding the key
functions, and the four trait impls, each recording the generics it is
declared with. -/

/-- One generic parameter of the target struct, with its bounds. -/
structure GenericParam where
  name : String
  bounds : List String
deriving DecidableEq, Repr

/-- The target struct's generic parameter list and where-clause. -/
structure Generics where
  params : List GenericParam
  whereClause : List String
deriving DecidableEq, Repr

/-- Shape of the annotated struct as the synthesizer reads it: its name,
its generics, and its (otherwise untouched) declaration body. -/
structure ItemStruct where
  ident : String
  generics : Generics
  body : List Tok

/-- Embedding of `syn`'s `Generics::split_for_impl` (lib.rs line 270):
the impl generics (parameters with bounds), the type generics (parameter
names only), and the where-clause. -/
def split_for_impl (g : Generics) :
    List GenericParam × List String × List String :=
  (g.params, g.params.map GenericParam.name, g.whereClause)

/-- The names `_ord_eq_by_key_selector_0`, `_ord_eq_by_key_selector_1`, ...
of the synthesized key functions (lib.rs lines 261-264). -/
def key_selector_func_names (n : Nat) : List String :=
  (List.range n).map (fun i => "_ord_eq_by_key_selector_" ++ toString i)

/-- The pattern the binding is materialized as inside each key function
(lib.rs lines 244-258): the single identifier, or `Self(a, b, ...)`. -/
inductive KeySelectorParam where
  | plainIdent (s : String)
  | selfDestructure (names : List String)
deriving DecidableEq, Repr

/-- One synthesized key function: its generated name, the binding pattern
materialized in its body, and the key expression it evaluates. -/
structure KeyFn where
  name : String
  param : KeySelectorParam
  body : List Tok

/-- One emitted trait impl: the generics it is declared with, the trait,
the target type, and the key functions its method body invokes in order
(empty for `Eq`, which has no body, and for `PartialOrd`, which delegates
to `cmp`). -/
structure TraitImpl where
  implGenerics : List GenericParam
  traitName : String
  targetName : String
  tyGenerics : List String
  whereClause : List String
  usedKeyFns : List String
deriving DecidableEq, Repr

/-- The emitted bundle (the `quote!` template at lib.rs lines 272-334). -/
structure SynthOutput where
  original : ItemStruct
  inherentImplGenerics : List GenericParam
  inherentTargetName : String
  inherentTyGenerics : List String
  inherentWhereClause : List String
  keyFns : List KeyFn
  traitImpls : List TraitImpl

/-- Embedding of the synthesizer `ord_eq_by_key_selector` (lib.rs lines
241-337), after both `parse_macro_input!` calls succeeded: a total
function with no failure path. -/
def ord_eq_by_key_selector (attr : MacroAttribute) (item : ItemStruct) :
    SynthOutput :=
  let key_selector_param :=
    match attr.param with
    | ParamDefinition.SingleIdentifier i => KeySelectorParam.plainIdent i
    | ParamDefinition.Tuple t => KeySelectorParam.selfDestructure t
  let func_names := key_selector_func_names attr.key_selectors.length
  let structure_name := item.ident
  let (impl_generics, ty_generics, where_clause) :=
    split_for_impl item.generics
  { original := item
    inherentImplGenerics := impl_generics
    inherentTargetName := structure_name
    inherentTyGenerics := ty_generics
    inherentWhereClause := where_clause
    keyFns := (func_names.zip attr.key_selectors).map
      (fun p => { name := p.1, param := key_selector_param, body := p.2 })
    traitImpls :=
      [{ implGenerics := impl_generics, traitName := "::core::cmp::PartialEq",
         targetName := structure_name, tyGenerics := ty_generics,
         whereClause := where_clause, usedKeyFns := func_names },
       { implGenerics := impl_generics, traitName := "::core::cmp::Eq",
         targetName := structure_name, tyGenerics := ty_generics,
         whereClause := where_clause, usedKeyFns := [] },
       { implGenerics := impl_generics, traitName := "::core::cmp::Ord",
         targetName := structure_name, tyGenerics := ty_generics,
         whereClause := where_clause, usedKeyFns := func_names },
       { implGenerics := impl_generics, traitName := "::core::cmp::PartialOrd",
         targetName := structure_name, tyGenerics := ty_generics,
         whereClause := where_clause, usedKeyFns := [] }] }

theorem zip_keyFns_body (kp : KeySelectorParam) :
    ∀ (l1 : List String) (l2 : List (List Tok)), l2.length ≤ l1.length →
      ((l1.zip l2).map
          (fun p => ({ name := p.1, param := kp, body := p.2 } : KeyFn))).map
        KeyFn.body = l2 := by
  intro l1
  induction l1 with
  | nil =>
    intro l2 h
    cases l2 with
    | nil => rfl
    | cons b l2 => exact absurd h (by simp)
  | cons a l1 ih =>
    intro l2 h
    cases l2 with
    | nil => rfl
    | cons b l2 =>
      simp only [List.zip_cons_cons, List.map_cons]
      rw [ih l2 (Nat.le_of_succ_le_succ h)]

theorem zip_keyFns_name (kp : KeySelectorParam) :
    ∀ (l1 : List String) (l2 : List (List Tok)), l1.length ≤ l2.length →
      ((l1.zip l2).map
          (fun p => ({ name := p.1, param := kp, body := p.2 } : KeyFn))).map
        KeyFn.name = l1 := by
  intro l1
  induction l1 with
  | nil => intro l2 _; rfl
  | cons a l1 ih =>
    intro l2 h
    cases l2 with
    | nil => exact absurd h (by simp)
    | cons b l2 =>
      simp only [List.zip_cons_cons, List.map_cons]
      rw [ih l2 (Nat.le_of_succ_le_succ h)]

/-!  Claim theorems for the synthesizer layer. -/

/-- Claim C8: the inherent impl holding every synthesized key-extraction
function, and each of the four generated trait impls, are declared with
exactly the annotated struct's generic parameter list (with bounds), type
arguments, and where-clause, copied unmodified from the target
declaration. -/
theorem generics_copied_verbatim (attr : MacroAttribute) (item : ItemStruct) :
    (ord_eq_by_key_selector attr item).inherentImplGenerics =
        item.generics.params ∧
      (ord_eq_by_key_selector attr item).inherentWhereClause =
        item.generics.whereClause ∧
      (ord_eq_by_key_selector attr item).traitImpls.map TraitImpl.implGenerics
        = List.replicate 4 item.generics.params ∧
      (ord_eq_by_key_selector attr item).traitImpls.map TraitImpl.whereClause
        = List.replicate 4 item.generics.whereClause ∧
      (ord_eq_by_key_selector attr item).traitImpls.map TraitImpl.tyGenerics
        = List.replicate 4 (item.generics.params.map GenericParam.name) := by
  simp [ord_eq_by_key_selector, split_for_impl, List.replicate]

/-- Claim C9: once the attribute has parsed, synthesis cannot fail: for
every parsed attribute and every target-struct shape, the (total)
synthesizer produces a bundle containing the unchanged original
declaration, one key function per key expression with the expected
generated names, and exactly the four trait impls. -/
theorem synthesis_cannot_fail (attr : MacroAttribute) (item : ItemStruct) :
    (ord_eq_by_key_selector attr item).original = item ∧
      (ord_eq_by_key_selector attr item).keyFns.map KeyFn.body =
        attr.key_selectors ∧
      (ord_eq_by_key_selector attr item).keyFns.map KeyFn.name =
        key_selector_func_names attr.key_selectors.length ∧
      (ord_eq_by_key_selector attr item).traitImpls.map TraitImpl.traitName =
        ["::core::cmp::PartialEq", "::core::cmp::Eq", "::core::cmp::Ord",
         "::core::cmp::PartialOrd"] := by
  refine ⟨rfl, ?_, ?_, rfl⟩
  · simp only [ord_eq_by_key_selector, split_for_impl]
    exact zip_keyFns_body _ _ _ (by simp [key_selector_func_names])
  · simp only [ord_eq_by_key_selector, split_for_impl]
    exact zip_keyFns_name _ _ _ (by simp [key_selector_func_names])

end OrdByKey
